import Mathlib

/-!
Verification development for the movie-pycker repository.

Shallow embedding of the core modules:
  * `app/services/metadata_enrichment.py` (filename normalization, enrichment pipeline)
  * `app/infrastructure/omdb_client.py`   (metadata source client result shaping)
  * `app/infrastructure/cache.py`         (in-memory cache, copy-in / copy-out)
  * `app/services/search.py`              (keyword filter and sorting)

Python strings are modelled as Lean `String` / `List Char` (the repository only
exercises ASCII-relevant behaviour of `str.lower`, `str.strip`, `re` word
boundaries, which the embedding mirrors for ASCII).  Python `dict` is modelled
as an insertion-ordered association list.  Fallible operations return `Option`.
-/

namespace MoviePycker

/-! ### Character / string helpers (Python `str` semantics, ASCII) -/

/-- Python `str.strip()` whitespace set (ASCII). -/
def isSpaceChar (c : Char) : Bool :=
  c == ' ' || c == '\t' || c == '\n' || c == '\r' || c == '\x0b' || c == '\x0c'

/-- An ASCII digit `0`-`9` (code points 48-57). -/
def isDigitChar (c : Char) : Bool :=
  48 ≤ c.toNat && c.toNat ≤ 57

/-- A regex word character `\w` (ASCII): digits, letters, underscore. -/
def isWordChar (c : Char) : Bool :=
  (48 ≤ c.toNat && c.toNat ≤ 57) || (65 ≤ c.toNat && c.toNat ≤ 90) ||
    (97 ≤ c.toNat && c.toNat ≤ 122) || c == '_'

/-- Python `str.strip()` on a character list. -/
def pyStrip (l : List Char) : List Char :=
  ((l.dropWhile isSpaceChar).reverse.dropWhile isSpaceChar).reverse

/-- Python `str.strip()` on a string. -/
def pyStripS (s : String) : String :=
  String.mk (pyStrip s.data)

/-- Python `str.lower()` (ASCII case folding). -/
def pyLower (l : List Char) : List Char :=
  l.map Char.toLower

/-- Python `str.lower()` on a string. -/
def pyLowerS (s : String) : String :=
  String.mk (pyLower s.data)

/-- Python `str.split()` (split on whitespace runs, dropping empty pieces). -/
def pyWords (l : List Char) : List (List Char) :=
  (l.splitOnP isSpaceChar).filter (fun w => w ≠ [])

/-- `sep.join(ws)` for a one-character separator. -/
def joinSep (sep : Char) : List (List Char) → List Char
  | [] => []
  | [w] => w
  | w :: ws => w ++ sep :: joinSep sep ws

/-- Python `str.replace(a, b)` where `a`, `b` are single characters. -/
def replaceChar (a b : Char) (l : List Char) : List Char :=
  l.map (fun c => if c = a then b else c)

/-- Is the pattern a (case-sensitive) leading segment of the list? -/
def isPrefOf : List Char → List Char → Bool
  | [], _ => true
  | _ :: _, [] => false
  | a :: as, b :: bs => a == b && isPrefOf as bs

/-- Python `needle in hay` for strings (contiguous substring test). -/
def strIn (needle : List Char) : List Char → Bool
  | [] => isPrefOf needle []
  | b :: bs => isPrefOf needle (b :: bs) || strIn needle bs

/-- Python `int(token)` for a whitespace-free token: optional sign, digits. -/
def parseDigits (l : List Char) : Option Nat :=
  if l ≠ [] ∧ l.all isDigitChar then
    some (l.foldl (fun acc c => acc * 10 + (c.toNat - '0'.toNat)) 0)
  else
    none

/-- Python `int(...)` on a token (sign handling; grouping underscores unused
by this repository's inputs are not modelled). -/
def parsePyInt (l : List Char) : Option Int :=
  match l with
  | '-' :: rest => (parseDigits rest).map (fun n => -(n : Int))
  | '+' :: rest => (parseDigits rest).map (fun n => (n : Int))
  | _ => (parseDigits l).map (fun n => (n : Int))

/-! ### Domain models (`app/domain/movie.py`) -/

/-- Exceptions the domain layer can raise: pydantic's `ValidationError`,
raised when a model field fails validation (here: `duration_minutes` with
`ge=0`). -/
inductive PyErr where
  | validationError
  deriving DecidableEq, Repr

/-- `MovieFile`: raw file information extracted from disk.  Pydantic
validates `duration_minutes` with `ge=0` at construction time; instances
handed to the pipeline therefore satisfy `0 ≤ duration_minutes`, which
theorems take as a hypothesis. -/
structure MovieFile where
  file_path : String
  filename : String
  duration_minutes : Int
  deriving DecidableEq, Repr

/-- `MovieMetadata`: enriched record (file info + OMDb data).  The raw record
shape; pydantic's validated construction is `mkMovieMetadata` below, the only
way the embedded code builds one. -/
structure MovieMetadata where
  file_path : String
  title : Option String
  genres : List String
  plot : Option String
  duration_minutes : Int
  deriving DecidableEq, Repr

/-- `MovieMetadata(...)`, pydantic construction: validates the
`duration_minutes` field (`ge=0`) and raises `ValidationError` when the check
fails. -/
def mkMovieMetadata (file_path : String) (title : Option String) (genres : List String)
    (plot : Option String) (duration_minutes : Int) : Except PyErr MovieMetadata :=
  if 0 ≤ duration_minutes then
    .ok { file_path := file_path, title := title, genres := genres, plot := plot,
          duration_minutes := duration_minutes }
  else
    .error .validationError

/-! ### OMDb client (`app/infrastructure/omdb_client.py`) -/

/-- The decoded JSON body of an OMDb response; `.get` of each key the client
reads is modelled as an `Option String` field. -/
structure OmdbJson where
  responseField : Option String
  errorField : Option String
  titleField : Option String
  genreField : Option String
  plotField : Option String
  runtimeField : Option String
  deriving DecidableEq, Repr

/-- Outcome of the HTTP exchange inside `fetch_movie_metadata`:
either the transport fails (`httpx.RequestError`) or a response with a status
code and a decoded JSON body arrives. -/
inductive HttpOutcome where
  | requestError
  | response (status : Nat) (body : OmdbJson)
  deriving DecidableEq, Repr

/-- The structured result dict built by `fetch_movie_metadata` on success. -/
structure OmdbResult where
  title : Option String
  genres : List String
  plot : Option String
  runtime_minutes : Option Int
  deriving DecidableEq, Repr

/-- `_parse_genres`: split a comma-separated genre string, strip entries,
drop empties; `None`/empty/`"N/A"` mean no data. -/
def _parse_genres (value : Option String) : List String :=
  match value with
  | none => []
  | some s =>
    if s = "" ∨ s = "N/A" then []
    else ((s.data.splitOn ',').map (fun g => String.mk (pyStrip g))).filter
      (fun g => g ≠ "")

/-- `_parse_runtime_minutes`: parse a runtime string such as `"127 min"`
into integer minutes (leading token), `None` on failure or placeholder. -/
def _parse_runtime_minutes (value : Option String) : Option Int :=
  match value with
  | none => none
  | some s =>
    if s = "" ∨ s = "N/A" then none
    else
      match pyWords s.data with
      | [] => none
      | p :: _ => parsePyInt p

/-- `OMDbClient.fetch_movie_metadata`: `httpx.RequestError` and
`httpx.HTTPStatusError` (raised by `raise_for_status` on any non-2xx status)
are caught and yield `None`; a body whose `"Response"` field is not `"True"`
also yields `None`; otherwise the result dict is built. -/
def fetch_movie_metadata (outcome : HttpOutcome) : Option OmdbResult :=
  match outcome with
  | .requestError => none
  | .response status body =>
    if status < 200 ∨ 300 ≤ status then none
    else if body.responseField ≠ some "True" then none
    else some
      { title := body.titleField
        genres := _parse_genres body.genreField
        plot := body.plotField
        runtime_minutes := _parse_runtime_minutes body.runtimeField }

/-! ### Filename normalization (`app/services/metadata_enrichment.py`) -/

/-- `pathlib.PurePath.name`: the final path component. -/
def lastComponent (l : List Char) : List Char :=
  (l.splitOn '/').getLastD l

/-- `pathlib.PurePath.stem`: the final component without its last suffix
(`name[:i]` for the last dot index `i` when `0 < i < len(name) - 1`). -/
def pathStem (name : List Char) : List Char :=
  match ((name.enum.filter (fun p => p.2 = '.')).map (fun p => p.1)).getLast? with
  | some i => if 0 < i ∧ i < name.length - 1 then name.take i else name
  | none => name

/-- The separator-replacement loop: `for char in "._()[]": name = name.replace(char, " ")`. -/
def sepReplace (l : List Char) : List Char :=
  ['.', '_', '(', ')', '[', ']'].foldl (fun nm c => replaceChar c ' ' nm) l

/-- Do four characters match `(19|20)\d{2}`? -/
def isYear4 (a b c d : Char) : Bool :=
  ((a == '1' && b == '9') || (a == '2' && b == '0')) && (isDigitChar c && isDigitChar d)

/-- Is the first character of the list a word character (`false` at end of input)? -/
def headIsWord : List Char → Bool
  | [] => false
  | c :: _ => isWordChar c

/-- `_YEAR_PATTERN.sub("", name)` for `_YEAR_PATTERN = \b(19|20)\d{2}\b`:
left-to-right scan deleting each standalone year token.  `prevW` records
whether the previous character of the original string is a word character,
which decides the `\b` assertion at the current position. -/
def yearGo (prevW : Bool) : List Char → List Char
  | a :: b :: c :: d :: rest =>
    if prevW = false ∧ isYear4 a b c d = true ∧ headIsWord rest = false then
      yearGo true rest
    else
      a :: yearGo (isWordChar a) (b :: c :: d :: rest)
  | a :: rest => a :: yearGo (isWordChar a) rest
  | [] => []

/-- Case-insensitive literal match of a pattern against the start of the
input; returns the rest of the input after the match. -/
def matchCI : List Char → List Char → Option (List Char)
  | [], l => some l
  | _ :: _, [] => none
  | p :: ps, c :: cs => if p.toLower = c.toLower then matchCI ps cs else none

/-- Word-character status of the last character of the pattern (the pattern is
matched case-insensitively, which preserves word-character status). -/
def lastIsWord (t : List Char) : Bool :=
  match t.getLast? with
  | some c => isWordChar c
  | none => false

/-- `re.compile(r"\b" + re.escape(t) + r"\b", re.IGNORECASE).sub("", ...)`:
left-to-right scan deleting each whole-phrase occurrence of the literal token
`t`.  `\b` at a position holds iff word-character status changes there; after
a deletion the scan's previous character is the last matched original
character.  Fuel is the input length (each step consumes at least one
character). -/
def subGo (t : List Char) : Nat → Bool → List Char → List Char
  | _, _, [] => []
  | 0, _, l => l
  | fuel + 1, prevW, c :: cs =>
    match matchCI t (c :: cs) with
    | some rest =>
      if prevW ≠ isWordChar c ∧ lastIsWord t ≠ headIsWord rest then
        subGo t fuel (lastIsWord t) rest
      else
        c :: subGo t fuel (isWordChar c) cs
    | none => c :: subGo t fuel (isWordChar c) cs

/-- One compound-pattern substitution pass over a name. -/
def patternSub (t : String) (l : List Char) : List Char :=
  subGo t.data l.length false l

/-- Steps of `_normalize_filename` after the stem is taken: separator
replacement, year removal, compound-pattern removal, hyphen replacement,
whitespace split, single-token filter, rejoin and strip. -/
def normalizeCore (stem : List Char) (compound_patterns : List String)
    (single_tokens : List String) : String :=
  let name := sepReplace stem
  let name := yearGo false name
  let name := compound_patterns.foldl (fun nm t => patternSub t nm) name
  let name := replaceChar '-' ' ' name
  let ws := pyWords name
  let ws := ws.filter (fun w => !(single_tokens.contains (String.mk (pyLower w))))
  String.mk (pyStrip (joinSep ' ' ws))

/-- `_normalize_filename(file_path, compound_patterns, single_tokens)`.
Compound patterns are carried as their source tokens (the compiled regex is
`\b + re.escape(t) + \b` with `IGNORECASE`); single tokens are the lowercased
single-word noise tokens. -/
def _normalize_filename (file_path : String) (compound_patterns : List String)
    (single_tokens : List String) : String :=
  normalizeCore (pathStem (lastComponent file_path.data)) compound_patterns single_tokens

/-- `MetadataEnrichmentService.__init__`: the compound patterns are compiled
from the noise tokens that contain a hyphen or a space, in order. -/
def serviceCompounds (noise_tokens : List String) : List String :=
  noise_tokens.filter (fun t => t.data.contains '-' || t.data.contains ' ')

/-- `MetadataEnrichmentService.__init__`: the single-token set holds the
lowercase of every noise token without a hyphen or a space (a Python `set`
used only for membership, modelled as a list queried with `contains`). -/
def serviceSingleTokens (noise_tokens : List String) : List String :=
  (noise_tokens.filter (fun t => !(t.data.contains '-' || t.data.contains ' '))).map pyLowerS

/-- Normalization as configured by a service constructed with `noise_tokens`. -/
def normalizeWithTokens (file_path : String) (noise_tokens : List String) : String :=
  _normalize_filename file_path (serviceCompounds noise_tokens) (serviceSingleTokens noise_tokens)

/-! ### Enrichment pipeline (`MetadataEnrichmentService.enrich_movies`) -/

/-- Python `dict` keyed by strings (insertion-ordered association list,
`d[k] = v` overwrites in place or appends). -/
abbrev PyDict := List (String × MovieMetadata)

/-- `d.get(k)`. -/
def dictGet (d : PyDict) (k : String) : Option MovieMetadata :=
  match d with
  | [] => none
  | (k', v) :: rest => if k' = k then some v else dictGet rest k

/-- `d[k] = v`. -/
def dictSet (d : PyDict) (k : String) (v : MovieMetadata) : PyDict :=
  match d with
  | [] => [(k, v)]
  | (k', v') :: rest => if k' = k then (k, v) :: rest else (k', v') :: dictSet rest k v

/-- `_build_metadata(movie, omdb_data)`: absent data keeps the technical
duration; present data supplies title/genres/plot, and the source runtime is
used only when the technical duration is exactly 0 and the runtime is a valid
integer (`isinstance(runtime_minutes, int)`).  The final
`MovieMetadata(...)` call is pydantic-validated, so a negative computed
duration (e.g. technical duration 0 with a source runtime parsed from
`"-5 min"`) raises `ValidationError` instead of returning a record. -/
def _build_metadata (movie : MovieFile) (omdb_data : Option OmdbResult) :
    Except PyErr MovieMetadata :=
  match omdb_data with
  | none =>
    mkMovieMetadata movie.file_path none [] none movie.duration_minutes
  | some d =>
    let duration_minutes :=
      match d.runtime_minutes with
      | some r => if movie.duration_minutes = 0 then r else movie.duration_minutes
      | none => movie.duration_minutes
    mkMovieMetadata movie.file_path d.title d.genres d.plot duration_minutes

/-- Result of one `enrich_movies` run: the returned records, the cache store
afterwards, and the list of OMDb queries issued (the observable source-client
calls, in order). -/
structure EnrichOut where
  records : List MovieMetadata
  cache : PyDict
  calls : List String
  deriving DecidableEq, Repr

/-- `MetadataEnrichmentService.enrich_movies`, with the OMDb client abstracted
as a deterministic `fetchFn` from query title to `fetch_movie_metadata`'s
result.  A cached record (a model instance, hence truthy in Python) is
appended unchanged with no client call; otherwise the filename is normalized,
the client queried, the record built, stored under `str(movie.file_path)`
and appended.  A `ValidationError` raised inside `_build_metadata` is not
caught anywhere in `enrich_movies` and propagates to the caller, aborting
the run. -/
def enrich_movies (fetchFn : String → Option OmdbResult)
    (compound_patterns single_tokens : List String) :
    List MovieFile → PyDict → Except PyErr EnrichOut
  | [], cache => .ok { records := [], cache := cache, calls := [] }
  | movie :: rest, cache =>
    match dictGet cache movie.file_path with
    | some cached =>
      match enrich_movies fetchFn compound_patterns single_tokens rest cache with
      | .ok out =>
        .ok { records := cached :: out.records, cache := out.cache, calls := out.calls }
      | .error e => .error e
    | none =>
      let q := _normalize_filename movie.file_path compound_patterns single_tokens
      match _build_metadata movie (fetchFn q) with
      | .ok md =>
        match enrich_movies fetchFn compound_patterns single_tokens rest
            (dictSet cache movie.file_path md) with
        | .ok out =>
          .ok { records := md :: out.records, cache := out.cache, calls := q :: out.calls }
        | .error e => .error e
      | .error e => .error e

/-! ### Cache (`app/infrastructure/cache.py`) with an explicit heap

`InMemoryCache` copies its `initial` mapping at construction time
(`dict(initial)`) and returns a copy from `get_all` (`dict(self._store)`).
To state that mutating those outside dicts never affects the cache, dicts
live in an explicit heap of `PyDict` values addressed by `Nat` references;
allocation appends to the heap. -/

abbrev Heap := List PyDict

/-- Dereference (a dangling reference reads as an empty dict). -/
def heapGet (h : Heap) (r : Nat) : PyDict :=
  h.getD r []

/-- In-place update of the dict a reference points to. -/
def heapSet (h : Heap) (r : Nat) (d : PyDict) : Heap :=
  h.set r d

/-- `InMemoryCache.__init__`: allocate a fresh dict holding a copy of the
initial mapping's contents; returns the new heap and the cache's store
reference. -/
def inMemoryCache_init (h : Heap) (initial : Option Nat) : Heap × Nat :=
  let contents := match initial with
    | some r => heapGet h r
    | none => []
  (h ++ [contents], h.length)

/-- `InMemoryCache.get`. -/
def cache_get (h : Heap) (self : Nat) (k : String) : Option MovieMetadata :=
  dictGet (heapGet h self) k

/-- `InMemoryCache.set`. -/
def cache_set (h : Heap) (self : Nat) (k : String) (v : MovieMetadata) : Heap :=
  heapSet h self (dictSet (heapGet h self) k v)

/-- `InMemoryCache.exists` (`key in self._store`). -/
def cache_exists (h : Heap) (self : Nat) (k : String) : Bool :=
  (dictGet (heapGet h self) k).isSome

/-- `InMemoryCache.get_all`: allocate and return a shallow copy of the store. -/
def cache_get_all (h : Heap) (self : Nat) : Heap × Nat :=
  (h ++ [heapGet h self], h.length)

/-- External code mutating a dict it holds a reference to (e.g. writing into
the mapping returned by `get_all`, or into the mapping that was passed to the
constructor). -/
def dict_mutate (h : Heap) (r : Nat) (d : PyDict) : Heap :=
  heapSet h r d

/-! ### Search service (`app/services/search.py`) -/

/-- `_matches_keywords`: any keyword is a substring of the lowercased
concatenation of title, plot and genres. -/
def _matches_keywords (movie : MovieMetadata) (keywords : List String) : Bool :=
  let haystack := pyLower ((movie.title.getD "").data ++ ' ' ::
    ((movie.plot.getD "").data ++ ' ' :: joinSep ' ' (movie.genres.map String.data)))
  keywords.any (fun kw => strIn kw.data haystack)

/-- `SearchService._filter_movies`. -/
def _filter_movies (movies : List MovieMetadata) (keywords : List String) :
    List MovieMetadata :=
  if keywords.isEmpty then movies
  else
    let normalized := (keywords.filter (fun kw => pyStripS kw ≠ "")).map
      (fun kw => pyStripS (pyLowerS kw))
    if normalized.isEmpty then movies
    else movies.filter (fun m => _matches_keywords m normalized)

/-- The field named by a sort string: `sort[1:]` when it starts with `-`,
else `sort` itself. -/
def sortField (sort : String) : String :=
  match sort.data with
  | '-' :: rest => String.mk rest
  | _ => sort

/-- Does the sort string start with the descending marker `-`? -/
def sortReverse (sort : String) : Bool :=
  match sort.data with
  | '-' :: _ => true
  | _ => false

/-- `_parse_sort`: strip an optional leading `-` (descending marker); the
field `"duration"` sorts by `duration_minutes`, any other field yields the
constant key with `reverse=False` (a stable no-op). -/
def _parse_sort (sort : String) : (MovieMetadata → Int) × Bool :=
  if sortField sort = "duration" then ((fun m => m.duration_minutes), sortReverse sort)
  else ((fun _ => 0), false)

/-- Python `sorted(l, key=key, reverse=reverse)`: a stable sort; modelled by
stable insertion sort on the corresponding total preorder (for `reverse=True`
CPython keeps ties in original order, which is exactly the stable sort by the
flipped comparator). -/
def pySorted (key : MovieMetadata → Int) (reverse : Bool)
    (l : List MovieMetadata) : List MovieMetadata :=
  if reverse then l.insertionSort (fun a b => key b ≤ key a)
  else l.insertionSort (fun a b => key a ≤ key b)

/-- `SearchService._sort_movies`. -/
def _sort_movies (movies : List MovieMetadata) (sort : String) : List MovieMetadata :=
  let kr := _parse_sort sort
  pySorted kr.1 kr.2 movies

/-- `SearchService.search`. -/
def search (movies : List MovieMetadata) (keywords : List String) (sort : String) :
    List MovieMetadata :=
  _sort_movies (_filter_movies movies keywords) sort

/-! ### Statement helpers -/

/-- Numeric value of a digit string (used to state the year range 1900-2099). -/
def digitsToNat (w : List Char) : Nat :=
  w.foldl (fun acc c => acc * 10 + (c.toNat - '0'.toNat)) 0

/-- A standalone 4-digit token whose value lies in 1900-2099. -/
def isYearToken (w : List Char) : Bool :=
  (w.length == 4) && w.all isDigitChar &&
    decide (1900 ≤ digitsToNat w) && decide (digitsToNat w ≤ 2099)

/-- The whitespace-separated words of a string. -/
def wordsOfStr (s : String) : List String :=
  (pyWords s.data).map String.mk

/-! ## Helper lemmas -/

theorem insertionSort_of_total {α : Type} (r : α → α → Prop) [DecidableRel r]
    (htot : ∀ a b, r a b) : ∀ l : List α, l.insertionSort r = l
  | [] => rfl
  | a :: t => by
    rw [List.insertionSort, insertionSort_of_total r htot t]
    cases t with
    | nil => rfl
    | cons b t2 => simp [List.orderedInsert, htot a b]

theorem dictGet_dictSet_self (d : PyDict) (k : String) (v : MovieMetadata) :
    dictGet (dictSet d k v) k = some v := by
  induction d with
  | nil => simp [dictSet, dictGet]
  | cons p rest ih =>
    obtain ⟨k1, v1⟩ := p
    by_cases hk : k1 = k
    · simp [dictSet, hk, dictGet]
    · simp [dictSet, hk, dictGet, ih]

theorem dictGet_dictSet_ne (d : PyDict) (k k' : String) (v : MovieMetadata)
    (h : k ≠ k') : dictGet (dictSet d k v) k' = dictGet d k' := by
  induction d with
  | nil => simp [dictSet, dictGet, h]
  | cons p rest ih =>
    obtain ⟨k1, v1⟩ := p
    by_cases hk : k1 = k
    · subst hk
      simp [dictSet, dictGet, h]
    · by_cases hk' : k1 = k' <;> simp [dictSet, hk, dictGet, hk', ih, Ne.symm h]

theorem build_ok (movie : MovieFile) (od : Option OmdbResult)
    (hm : 0 ≤ movie.duration_minutes)
    (hr : ∀ d r, od = some d → d.runtime_minutes = some r → 0 ≤ r) :
    ∃ md, _build_metadata movie od = .ok md := by
  cases od with
  | none =>
    refine ⟨⟨movie.file_path, none, [], none, movie.duration_minutes⟩, ?_⟩
    unfold _build_metadata mkMovieMetadata
    rw [if_pos hm]
  | some d =>
    cases hrt : d.runtime_minutes with
    | none =>
      refine ⟨⟨movie.file_path, d.title, d.genres, d.plot, movie.duration_minutes⟩, ?_⟩
      simp only [_build_metadata, mkMovieMetadata, hrt]
      rw [if_pos hm]
    | some r =>
      have hr0 := hr d r rfl hrt
      by_cases h0 : movie.duration_minutes = 0
      · refine ⟨⟨movie.file_path, d.title, d.genres, d.plot, r⟩, ?_⟩
        simp only [_build_metadata, mkMovieMetadata, hrt, if_pos h0]
        rw [if_pos hr0]
      · refine ⟨⟨movie.file_path, d.title, d.genres, d.plot, movie.duration_minutes⟩, ?_⟩
        simp only [_build_metadata, mkMovieMetadata, hrt, if_neg h0]
        rw [if_pos hm]

theorem enrich_ok_of_valid (f : String → Option OmdbResult) (cp st : List String)
    (hfetch : ∀ q d r, f q = some d → d.runtime_minutes = some r → 0 ≤ r) :
    ∀ (ms : List MovieFile) (cache : PyDict),
      (∀ m ∈ ms, 0 ≤ m.duration_minutes) →
      ∃ out, enrich_movies f cp st ms cache = .ok out ∧
        out.records.length = ms.length := by
  intro ms
  induction ms with
  | nil => intro cache _; exact ⟨⟨[], cache, []⟩, rfl, rfl⟩
  | cons m rest ih =>
    intro cache h
    have hm := h m (List.mem_cons_self m rest)
    have hrest := fun m' hm' => h m' (List.mem_cons_of_mem m hm')
    cases hC : dictGet cache m.file_path with
    | some v =>
      obtain ⟨out, ho, hl⟩ := ih cache hrest
      refine ⟨⟨v :: out.records, out.cache, out.calls⟩, ?_, ?_⟩
      · simp [enrich_movies, hC, ho]
      · simp [hl]
    | none =>
      obtain ⟨md, hmd⟩ := build_ok m (f (_normalize_filename m.file_path cp st)) hm
        (fun d r he hrt => hfetch _ d r he hrt)
      obtain ⟨out, ho, hl⟩ := ih (dictSet cache m.file_path md) hrest
      refine ⟨⟨md :: out.records, out.cache,
        _normalize_filename m.file_path cp st :: out.calls⟩, ?_, ?_⟩
      · simp [enrich_movies, hC, hmd, ho]
      · simp [hl]

theorem enrich_append_ok (f : String → Option OmdbResult) (cp st : List String) :
    ∀ (ms1 ms2 : List MovieFile) (cache : PyDict) (o1 o2 : EnrichOut),
      enrich_movies f cp st ms1 cache = .ok o1 →
      enrich_movies f cp st ms2 o1.cache = .ok o2 →
      enrich_movies f cp st (ms1 ++ ms2) cache =
        .ok { records := o1.records ++ o2.records, cache := o2.cache,
              calls := o1.calls ++ o2.calls } := by
  intro ms1
  induction ms1 with
  | nil =>
    intro ms2 cache o1 o2 h1 h2
    simp only [enrich_movies, Except.ok.injEq] at h1
    subst h1
    simpa using h2
  | cons m rest ih =>
    intro ms2 cache o1 o2 h1 h2
    cases hC : dictGet cache m.file_path with
    | some v =>
      simp only [enrich_movies, hC] at h1
      cases hr : enrich_movies f cp st rest cache with
      | error e => simp only [hr] at h1; exact Except.noConfusion h1
      | ok or1 =>
        simp only [hr, Except.ok.injEq] at h1
        subst h1
        have hrec := ih ms2 cache or1 o2 hr h2
        show enrich_movies f cp st ((m :: rest) ++ ms2) cache = _
        rw [List.cons_append]
        simp only [enrich_movies, hC, List.append_eq, hrec]
        simp
    | none =>
      simp only [enrich_movies, hC] at h1
      cases hb : _build_metadata m (f (_normalize_filename m.file_path cp st)) with
      | error e => simp only [hb] at h1; exact Except.noConfusion h1
      | ok md =>
        simp only [hb] at h1
        cases hr : enrich_movies f cp st rest (dictSet cache m.file_path md) with
        | error e => simp only [hr] at h1; exact Except.noConfusion h1
        | ok or1 =>
          simp only [hr, Except.ok.injEq] at h1
          subst h1
          have hrec := ih ms2 (dictSet cache m.file_path md) or1 o2 hr h2
          show enrich_movies f cp st ((m :: rest) ++ ms2) cache = _
          rw [List.cons_append]
          simp only [enrich_movies, hC, hb, List.append_eq, hrec]
          simp

theorem enrich_cache_mono (f : String → Option OmdbResult) (cp st : List String) :
    ∀ (ms : List MovieFile) (cache : PyDict) (k : String) (v : MovieMetadata)
      (out : EnrichOut),
      dictGet cache k = some v →
      enrich_movies f cp st ms cache = .ok out →
      dictGet out.cache k = some v := by
  intro ms
  induction ms with
  | nil =>
    intro cache k v out h ho
    simp only [enrich_movies, Except.ok.injEq] at ho
    subst ho
    exact h
  | cons m rest ih =>
    intro cache k v out h ho
    cases hC : dictGet cache m.file_path with
    | some cached =>
      simp only [enrich_movies, hC] at ho
      cases hr : enrich_movies f cp st rest cache with
      | error e => simp only [hr] at ho; exact Except.noConfusion ho
      | ok out' =>
        simp only [hr, Except.ok.injEq] at ho
        subst ho
        exact ih cache k v out' h hr
    | none =>
      simp only [enrich_movies, hC] at ho
      cases hb : _build_metadata m (f (_normalize_filename m.file_path cp st)) with
      | error e => simp only [hb] at ho; exact Except.noConfusion ho
      | ok md =>
        simp only [hb] at ho
        cases hr : enrich_movies f cp st rest (dictSet cache m.file_path md) with
        | error e => simp only [hr] at ho; exact Except.noConfusion ho
        | ok out' =>
          simp only [hr, Except.ok.injEq] at ho
          subst ho
          have hne : m.file_path ≠ k := by
            intro e
            rw [e] at hC
            rw [hC] at h
            cases h
          exact ih _ k v out' (by rw [dictGet_dictSet_ne _ _ _ _ hne]; exact h) hr

theorem enrich_cache_covers (f : String → Option OmdbResult) (cp st : List String) :
    ∀ (ms : List MovieFile) (cache : PyDict) (out : EnrichOut),
      enrich_movies f cp st ms cache = .ok out →
      List.Forall₂ (fun (m : MovieFile) (r : MovieMetadata) =>
        dictGet out.cache m.file_path = some r) ms out.records := by
  intro ms
  induction ms with
  | nil =>
    intro cache out ho
    simp only [enrich_movies, Except.ok.injEq] at ho
    subst ho
    exact List.Forall₂.nil
  | cons m rest ih =>
    intro cache out ho
    cases hC : dictGet cache m.file_path with
    | some cached =>
      simp only [enrich_movies, hC] at ho
      cases hr : enrich_movies f cp st rest cache with
      | error e => simp only [hr] at ho; exact Except.noConfusion ho
      | ok out' =>
        simp only [hr, Except.ok.injEq] at ho
        subst ho
        refine List.Forall₂.cons ?_ ?_
        · exact enrich_cache_mono f cp st rest cache m.file_path cached out' hC hr
        · exact ih cache out' hr
    | none =>
      simp only [enrich_movies, hC] at ho
      cases hb : _build_metadata m (f (_normalize_filename m.file_path cp st)) with
      | error e => simp only [hb] at ho; exact Except.noConfusion ho
      | ok md =>
        simp only [hb] at ho
        cases hr : enrich_movies f cp st rest (dictSet cache m.file_path md) with
        | error e => simp only [hr] at ho; exact Except.noConfusion ho
        | ok out' =>
          simp only [hr, Except.ok.injEq] at ho
          subst ho
          refine List.Forall₂.cons ?_ ?_
          · exact enrich_cache_mono f cp st rest _ m.file_path md out'
              (dictGet_dictSet_self cache m.file_path md) hr
          · exact ih _ out' hr

theorem enrich_all_hits (f : String → Option OmdbResult) (cp st : List String) :
    ∀ (ms : List MovieFile) (cache : PyDict) (rs : List MovieMetadata),
      List.Forall₂ (fun (m : MovieFile) (r : MovieMetadata) =>
        dictGet cache m.file_path = some r) ms rs →
      enrich_movies f cp st ms cache =
        .ok { records := rs, cache := cache, calls := [] } := by
  intro ms cache rs h
  induction h with
  | nil => rfl
  | cons hmr hrest ih => simp [enrich_movies, hmr, ih]

theorem heapGet_set_self :
    ∀ (h : Heap) (i : Nat) (d : PyDict), i < h.length → heapGet (heapSet h i d) i = d := by
  intro h
  induction h with
  | nil => intro i d hi; exact absurd hi (Nat.not_lt_zero i)
  | cons a t ih =>
    intro i d hi
    cases i with
    | zero => rfl
    | succ j => exact ih j d (Nat.lt_of_succ_lt_succ hi)

theorem heapGet_set_ne :
    ∀ (h : Heap) (i j : Nat) (d : PyDict), i ≠ j →
      heapGet (heapSet h i d) j = heapGet h j := by
  intro h
  induction h with
  | nil => intro i j d hne; rfl
  | cons a t ih =>
    intro i j d hne
    cases i with
    | zero =>
      cases j with
      | zero => exact absurd rfl hne
      | succ j2 => rfl
    | succ i2 =>
      cases j with
      | zero => rfl
      | succ j2 => exact ih i2 j2 d (fun e => hne (by rw [e]))

theorem heapGet_append_lt :
    ∀ (h : Heap) (d : PyDict) (j : Nat), j < h.length →
      heapGet (h ++ [d]) j = heapGet h j := by
  intro h
  induction h with
  | nil => intro d j hj; exact absurd hj (Nat.not_lt_zero j)
  | cons a t ih =>
    intro d j hj
    cases j with
    | zero => rfl
    | succ j2 => exact ih d j2 (Nat.lt_of_succ_lt_succ hj)

theorem char_eq_of_toNat {a b : Char} (h : a.toNat = b.toNat) : a = b :=
  Char.ext (UInt32.ext h)

theorem word_of_digit (c : Char) (h : isDigitChar c = true) : isWordChar c = true := by
  unfold isDigitChar at h
  unfold isWordChar
  simp only [Bool.and_eq_true, decide_eq_true_eq] at h
  simp only [Bool.or_eq_true, Bool.and_eq_true, decide_eq_true_eq]
  exact Or.inl (Or.inl (Or.inl ⟨h.1, h.2⟩))

theorem isYear4_word (a b c d : Char) (h : isYear4 a b c d = true) :
    isWordChar a = true ∧ isWordChar b = true ∧ isWordChar c = true ∧ isWordChar d = true := by
  unfold isYear4 at h
  simp only [Bool.and_eq_true, Bool.or_eq_true, beq_iff_eq] at h
  obtain ⟨hab, hc, hd⟩ := h
  refine ⟨?_, ?_, word_of_digit c hc, word_of_digit d hd⟩
  · rcases hab with ⟨ha, _⟩ | ⟨ha, _⟩ <;> subst ha <;> rfl
  · rcases hab with ⟨_, hb⟩ | ⟨_, hb⟩ <;> subst hb <;> rfl

theorem four_of_length (w : List Char) (h : w.length = 4) :
    ∃ a b c d, w = [a, b, c, d] := by
  rcases w with _ | ⟨a, _ | ⟨b, _ | ⟨c, _ | ⟨d, _ | ⟨e, t⟩⟩⟩⟩⟩
  · simp at h
  · simp at h
  · simp at h
  · simp at h
  · exact ⟨a, b, c, d, rfl⟩
  · simp at h

theorem isYearToken_length (w : List Char) (h : isYearToken w = true) : w.length = 4 := by
  unfold isYearToken at h
  simp only [Bool.and_eq_true, beq_iff_eq] at h
  exact h.1.1.1

theorem isYearToken_iff_isYear4 (a b c d : Char) :
    isYearToken [a, b, c, d] = true ↔ isYear4 a b c d = true := by
  have hfold : digitsToNat [a, b, c, d] =
      (((0 * 10 + (a.toNat - 48)) * 10 + (b.toNat - 48)) * 10 + (c.toNat - 48)) * 10 +
        (d.toNat - 48) := rfl
  constructor
  · intro h
    unfold isYearToken at h
    simp only [Bool.and_eq_true, beq_iff_eq, List.all_eq_true, decide_eq_true_eq] at h
    obtain ⟨⟨⟨hlen, hall⟩, h19⟩, h20⟩ := h
    have hda := hall a (by simp)
    have hdb := hall b (by simp)
    have hdc := hall c (by simp)
    have hdd := hall d (by simp)
    have hdaN : 48 ≤ a.toNat ∧ a.toNat ≤ 57 := by
      unfold isDigitChar at hda
      simpa only [Bool.and_eq_true, decide_eq_true_eq] using hda
    have hdbN : 48 ≤ b.toNat ∧ b.toNat ≤ 57 := by
      unfold isDigitChar at hdb
      simpa only [Bool.and_eq_true, decide_eq_true_eq] using hdb
    have hdcN : 48 ≤ c.toNat ∧ c.toNat ≤ 57 := by
      unfold isDigitChar at hdc
      simpa only [Bool.and_eq_true, decide_eq_true_eq] using hdc
    have hddN : 48 ≤ d.toNat ∧ d.toNat ≤ 57 := by
      unfold isDigitChar at hdd
      simpa only [Bool.and_eq_true, decide_eq_true_eq] using hdd
    rw [hfold] at h19 h20
    have hsplit : (a.toNat = 49 ∧ b.toNat = 57) ∨ (a.toNat = 50 ∧ b.toNat = 48) := by
      omega
    unfold isYear4
    simp only [Bool.and_eq_true, Bool.or_eq_true, beq_iff_eq]
    refine ⟨?_, hdc, hdd⟩
    rcases hsplit with ⟨h1, h2⟩ | ⟨h1, h2⟩
    · exact Or.inl ⟨char_eq_of_toNat (h1.trans rfl), char_eq_of_toNat (h2.trans rfl)⟩
    · exact Or.inr ⟨char_eq_of_toNat (h1.trans rfl), char_eq_of_toNat (h2.trans rfl)⟩
  · intro h
    unfold isYear4 at h
    simp only [Bool.and_eq_true, Bool.or_eq_true, beq_iff_eq] at h
    obtain ⟨hab, hc, hd⟩ := h
    have hcN : 48 ≤ c.toNat ∧ c.toNat ≤ 57 := by
      unfold isDigitChar at hc
      simpa only [Bool.and_eq_true, decide_eq_true_eq] using hc
    have hdN : 48 ≤ d.toNat ∧ d.toNat ≤ 57 := by
      unfold isDigitChar at hd
      simpa only [Bool.and_eq_true, decide_eq_true_eq] using hd
    have habN : (a.toNat = 49 ∧ b.toNat = 57) ∨ (a.toNat = 50 ∧ b.toNat = 48) := by
      rcases hab with ⟨ha, hb⟩ | ⟨ha, hb⟩
      · exact Or.inl ⟨by rw [ha]; rfl, by rw [hb]; rfl⟩
      · exact Or.inr ⟨by rw [ha]; rfl, by rw [hb]; rfl⟩
    have hdab : isDigitChar a = true ∧ isDigitChar b = true := by
      constructor <;>
        · unfold isDigitChar
          simp only [Bool.and_eq_true, decide_eq_true_eq]
          omega
    unfold isYearToken
    simp only [Bool.and_eq_true, beq_iff_eq, List.all_eq_true, decide_eq_true_eq]
    refine ⟨⟨⟨rfl, ?_⟩, ?_⟩, ?_⟩
    · intro x hx
      rcases List.mem_cons.mp hx with rfl | hx
      · exact hdab.1
      rcases List.mem_cons.mp hx with rfl | hx
      · exact hdab.2
      rcases List.mem_cons.mp hx with rfl | hx
      · exact hc
      rcases List.mem_cons.mp hx with rfl | hx
      · exact hd
      · cases hx
    · rw [hfold]
      omega
    · rw [hfold]
      omega

theorem word_not_space (c : Char) (h : isWordChar c = true) : isSpaceChar c = false := by
  cases hsp : isSpaceChar c
  · rfl
  · exfalso
    simp only [isSpaceChar, Bool.or_eq_true, beq_iff_eq] at hsp
    rcases hsp with ((((rfl | rfl) | rfl) | rfl) | rfl) | rfl <;> exact absurd h (by decide)

theorem word_ne (c x : Char) (h : isWordChar c = true) (hx : isWordChar x = false) :
    c ≠ x := by
  intro e
  subst e
  rw [h] at hx
  cases hx

theorem yearGo_true_cons (a : Char) (l : List Char) :
    yearGo true (a :: l) = a :: yearGo (isWordChar a) l := by
  rcases l with _ | ⟨b, _ | ⟨c, _ | ⟨d, t⟩⟩⟩
  · rfl
  · rfl
  · rfl
  · simp [yearGo]

theorem yearGo_space (p : Bool) (l : List Char) :
    yearGo p (' ' :: l) = ' ' :: yearGo false l := by
  rcases l with _ | ⟨b, _ | ⟨c, _ | ⟨d, t⟩⟩⟩
  · rfl
  · rfl
  · rfl
  · simp [yearGo, show isYear4 ' ' b c d = false from rfl,
      show isWordChar ' ' = false from rfl]

theorem yearGo_false_cons_stuck (a : Char) (l : List Char)
    (h : ∀ b c d t, l = b :: c :: d :: t →
        ¬(isYear4 a b c d = true ∧ headIsWord t = false)) :
    yearGo false (a :: l) = a :: yearGo (isWordChar a) l := by
  rcases l with _ | ⟨b, _ | ⟨c, _ | ⟨d, t⟩⟩⟩
  · rfl
  · rfl
  · rfl
  · have hno := h b c d t rfl
    show (if false = false ∧ isYear4 a b c d = true ∧ headIsWord t = false then
        yearGo true t
      else a :: yearGo (isWordChar a) (b :: c :: d :: t)) =
      a :: yearGo (isWordChar a) (b :: c :: d :: t)
    rw [if_neg (fun hcon => hno ⟨hcon.2.1, hcon.2.2⟩)]

theorem yearGo_false_year (a b c d : Char) (rest : List Char)
    (hy : isYear4 a b c d = true) (hrest : headIsWord rest = false) :
    yearGo false (a :: b :: c :: d :: rest) = yearGo true rest := by
  show (if false = false ∧ isYear4 a b c d = true ∧ headIsWord rest = false then
      yearGo true rest
    else a :: yearGo (isWordChar a) (b :: c :: d :: rest)) = yearGo true rest
  rw [if_pos ⟨rfl, hy, hrest⟩]

theorem yearGo_true_word (w rest : List Char) (hw : ∀ c ∈ w, isWordChar c = true) :
    yearGo true (w ++ rest) = w ++ yearGo true rest := by
  induction w with
  | nil => simp
  | cons a t ih =>
    have ha := hw a (List.mem_cons_self a t)
    rw [List.cons_append, yearGo_true_cons, ha,
      ih (fun c hc => hw c (List.mem_cons_of_mem a hc))]
    rfl

theorem yearGo_false_word (w rest : List Char) (hne : w ≠ [])
    (hw : ∀ c ∈ w, isWordChar c = true)
    (hrest : headIsWord rest = false)
    (hny : isYearToken w = false) :
    yearGo false (w ++ rest) = w ++ yearGo true rest := by
  rcases w with _ | ⟨a, w1⟩
  · exact absurd rfl hne
  have ha := hw a (List.mem_cons_self a w1)
  have hstep : yearGo false ((a :: w1) ++ rest) = a :: yearGo (isWordChar a) (w1 ++ rest) := by
    rw [List.cons_append]
    apply yearGo_false_cons_stuck
    intro b c d t hl hcon
    obtain ⟨hy, hb⟩ := hcon
    rcases w1 with _ | ⟨x1, _ | ⟨x2, _ | ⟨x3, w4⟩⟩⟩
    · -- w = [a] : the three digit positions after `a` come from `rest`
      simp only [List.nil_append] at hl
      rw [hl] at hrest
      rw [show headIsWord (b :: c :: d :: t) = isWordChar b from rfl,
        (isYear4_word a b c d hy).2.1] at hrest
      cases hrest
    · -- w = [a, x1]
      simp only [List.cons_append, List.nil_append, List.cons.injEq] at hl
      obtain ⟨hbx, hl2⟩ := hl
      rw [hl2] at hrest
      rw [show headIsWord (c :: d :: t) = isWordChar c from rfl,
        (isYear4_word a b c d hy).2.2.1] at hrest
      cases hrest
    · -- w = [a, x1, x2]
      simp only [List.cons_append, List.nil_append, List.cons.injEq] at hl
      obtain ⟨hbx, hcx, hl2⟩ := hl
      rw [hl2] at hrest
      rw [show headIsWord (d :: t) = isWordChar d from rfl,
        (isYear4_word a b c d hy).2.2.2] at hrest
      cases hrest
    · -- w = a :: x1 :: x2 :: x3 :: w4
      simp only [List.cons_append, List.cons.injEq] at hl
      obtain ⟨hbx, hcx, hdx, hl2⟩ := hl
      cases w4 with
      | nil =>
        -- w has exactly four characters and they match the year pattern
        simp only [List.nil_append] at hl2
        subst hbx; subst hcx; subst hdx
        have : isYearToken [a, x1, x2, x3] = true := (isYearToken_iff_isYear4 a x1 x2 x3).mpr hy
        rw [hny] at this
        cases this
      | cons e w5 =>
        -- the character after the candidate year is still inside the word
        have he : isWordChar e = true :=
          hw e (by simp)
        rw [show (e :: w5) ++ rest = e :: (w5 ++ rest) from rfl] at hl2
        rw [← hl2, show headIsWord (e :: (w5 ++ rest)) = isWordChar e from rfl, he] at hb
        cases hb
  rw [hstep, ha, yearGo_true_word w1 rest (fun c hc => hw c (List.mem_cons_of_mem a hc))]
  rfl

theorem yearGo_joinSep (ws : List (List Char))
    (h : ∀ w ∈ ws, w ≠ [] ∧ ∀ c ∈ w, isWordChar c = true) :
    yearGo false (joinSep ' ' ws) =
      joinSep ' ' (ws.map (fun w => if isYearToken w = true then [] else w)) := by
  induction ws with
  | nil => rfl
  | cons w ps ih =>
    obtain ⟨hne, hw⟩ := h w (List.mem_cons_self w ps)
    have hih := ih (fun w' hw' => h w' (List.mem_cons_of_mem w hw'))
    cases ps with
    | nil =>
      by_cases hy : isYearToken w = true
      · obtain ⟨a, b, c, d, rfl⟩ := four_of_length w (isYearToken_length w hy)
        have hy4 : isYear4 a b c d = true := (isYearToken_iff_isYear4 a b c d).mp hy
        show yearGo false (a :: b :: c :: d :: []) = joinSep ' ' [if isYearToken [a,b,c,d] = true then [] else [a,b,c,d]]
        rw [yearGo_false_year a b c d [] hy4 rfl, if_pos hy]
        rfl
      · have hny : isYearToken w = false := by
          cases hyy : isYearToken w
          · rfl
          · exact absurd hyy hy
        show yearGo false (joinSep ' ' [w]) = joinSep ' ' [if isYearToken w = true then [] else w]
        rw [if_neg hy]
        show yearGo false w = w
        have hthis := yearGo_false_word w [] hne hw rfl hny
        rw [List.append_nil, show yearGo true ([] : List Char) = [] from rfl,
          List.append_nil] at hthis
        exact hthis
    | cons w2 ps2 =>
      have hrest : headIsWord (' ' :: joinSep ' ' (w2 :: ps2)) = false := rfl
      by_cases hy : isYearToken w = true
      · obtain ⟨a, b, c, d, rfl⟩ := four_of_length w (isYearToken_length w hy)
        have hy4 : isYear4 a b c d = true := (isYearToken_iff_isYear4 a b c d).mp hy
        show yearGo false ([a, b, c, d] ++ ' ' :: joinSep ' ' (w2 :: ps2)) =
          joinSep ' ' ((if isYearToken [a,b,c,d] = true then [] else [a,b,c,d]) ::
            (w2 :: ps2).map (fun w => if isYearToken w = true then [] else w))
        rw [show ([a, b, c, d] : List Char) ++ ' ' :: joinSep ' ' (w2 :: ps2) =
            a :: b :: c :: d :: (' ' :: joinSep ' ' (w2 :: ps2)) from rfl]
        rw [yearGo_false_year a b c d _ hy4 hrest, yearGo_space, hih, if_pos hy]
        show ' ' :: joinSep ' ' ((w2 :: ps2).map (fun w => if isYearToken w = true then [] else w)) =
          joinSep ' ' ([] :: (w2 :: ps2).map (fun w => if isYearToken w = true then [] else w))
        rfl
      · have hny : isYearToken w = false := by
          cases hyy : isYearToken w
          · rfl
          · exact absurd hyy hy
        show yearGo false (w ++ ' ' :: joinSep ' ' (w2 :: ps2)) =
          joinSep ' ' ((if isYearToken w = true then [] else w) ::
            (w2 :: ps2).map (fun w => if isYearToken w = true then [] else w))
        rw [yearGo_false_word w _ hne hw hrest hny, yearGo_space, hih, if_neg hy]
        rfl

theorem splitOnP_no_sep (p : Char → Bool) :
    ∀ (l : List Char), ∀ w ∈ l.splitOnP p, ∀ c ∈ w, p c = false := by
  intro l
  induction l with
  | nil =>
    intro w hw c hc
    rw [List.splitOnP_nil] at hw
    rcases List.mem_cons.mp hw with rfl | hw2
    · cases hc
    · cases hw2
  | cons x xs ih =>
    intro w hw c hc
    rw [List.splitOnP_cons] at hw
    by_cases hx : p x = true
    · rw [if_pos hx] at hw
      rcases List.mem_cons.mp hw with rfl | hw2
      · cases hc
      · exact ih w hw2 c hc
    · rw [if_neg hx] at hw
      cases hsp : xs.splitOnP p with
      | nil => exact absurd hsp (List.splitOnP_ne_nil p xs)
      | cons hh tt =>
        rw [hsp] at hw
        simp only [List.modifyHead] at hw
        rcases List.mem_cons.mp hw with rfl | hw2
        · rcases List.mem_cons.mp hc with rfl | hc2
          · cases hpx : p c
            · rfl
            · exact absurd hpx hx
          · exact ih hh (hsp ▸ List.mem_cons_self hh tt) c hc2
        · exact ih w (hsp ▸ List.mem_cons_of_mem hh hw2) c hc

theorem pyWords_props (l : List Char) :
    ∀ w ∈ pyWords l, w ≠ [] ∧ ∀ c ∈ w, isSpaceChar c = false := by
  intro w hw
  unfold pyWords at hw
  refine ⟨?_, ?_⟩
  · have := List.of_mem_filter hw
    simpa using this
  · intro c hc
    exact splitOnP_no_sep isSpaceChar l w (List.mem_of_mem_filter hw) c hc

theorem mem_joinSep (sep : Char) :
    ∀ (ws : List (List Char)) (c : Char), c ∈ joinSep sep ws →
      c = sep ∨ ∃ w ∈ ws, c ∈ w := by
  intro ws
  induction ws with
  | nil => intro c hc; cases hc
  | cons w ps ih =>
    intro c hc
    cases ps with
    | nil =>
      right
      exact ⟨w, List.mem_cons_self w [], hc⟩
    | cons w2 ps2 =>
      rw [show joinSep sep (w :: w2 :: ps2) = w ++ sep :: joinSep sep (w2 :: ps2) from rfl] at hc
      rcases List.mem_append.mp hc with hw | hrest
      · right
        exact ⟨w, List.mem_cons_self w _, hw⟩
      · rcases List.mem_cons.mp hrest with rfl | hj
        · left
          rfl
        · rcases ih c hj with hs | ⟨w', hw', hcw⟩
          · left
            exact hs
          · right
            exact ⟨w', List.mem_cons_of_mem w hw', hcw⟩

theorem pyWords_joinSep :
    ∀ (pieces : List (List Char)),
      (∀ w ∈ pieces, ∀ c ∈ w, isSpaceChar c = false) →
      pyWords (joinSep ' ' pieces) = pieces.filter (fun w => w ≠ []) := by
  intro pieces
  induction pieces with
  | nil => intro h; rfl
  | cons w ps ih =>
    intro h
    have hw : ∀ x ∈ w, ¬ isSpaceChar x = true := by
      intro x hx
      rw [h w (List.mem_cons_self w ps) x hx]
      exact Bool.false_ne_true
    cases ps with
    | nil =>
      unfold pyWords
      rw [show joinSep ' ' [w] = w from rfl, List.splitOnP_eq_single isSpaceChar w hw]
    | cons w2 ps2 =>
      have hih := ih (fun w' hw' => h w' (List.mem_cons_of_mem w hw'))
      unfold pyWords at hih ⊢
      rw [show joinSep ' ' (w :: w2 :: ps2) = w ++ ' ' :: joinSep ' ' (w2 :: ps2) from rfl]
      rw [List.splitOnP_first isSpaceChar w hw ' ' rfl (joinSep ' ' (w2 :: ps2))]
      rw [List.filter_cons, List.filter_cons, hih]

theorem dropWhile_eq_self_of_head (p : Char → Bool) (l : List Char)
    (h : ∀ c, l.head? = some c → p c = false) : l.dropWhile p = l := by
  cases l with
  | nil => rfl
  | cons a t =>
    rw [List.dropWhile_cons, h a rfl]
    simp

theorem joinSep_head?_no_space (pieces : List (List Char))
    (h : ∀ w ∈ pieces, w ≠ [] ∧ ∀ c ∈ w, isSpaceChar c = false) :
    ∀ c, (joinSep ' ' pieces).head? = some c → isSpaceChar c = false := by
  intro c hc
  cases pieces with
  | nil => cases hc
  | cons w ps =>
    obtain ⟨hne, hw⟩ := h w (List.mem_cons_self w ps)
    rcases w with _ | ⟨a, w1⟩
    · exact absurd rfl hne
    have hhead : (joinSep ' ' ((a :: w1) :: ps)).head? = some a := by
      cases ps with
      | nil => rfl
      | cons w2 ps2 => rfl
    rw [hhead] at hc
    have hac := Option.some.inj hc
    subst hac
    exact hw a (List.mem_cons_self a w1)

theorem joinSep_getLast?_no_space :
    ∀ (pieces : List (List Char)),
      (∀ w ∈ pieces, w ≠ [] ∧ ∀ c ∈ w, isSpaceChar c = false) →
      ∀ c, (joinSep ' ' pieces).getLast? = some c → isSpaceChar c = false := by
  intro pieces
  induction pieces with
  | nil => intro h c hc; cases hc
  | cons w ps ih =>
    intro h c hc
    obtain ⟨hne, hw⟩ := h w (List.mem_cons_self w ps)
    cases ps with
    | nil => exact hw c (List.mem_of_mem_getLast? hc)
    | cons w2 ps2 =>
      rw [show joinSep ' ' (w :: w2 :: ps2) = w ++ ' ' :: joinSep ' ' (w2 :: ps2) from rfl,
        List.getLast?_append] at hc
      have hjn : joinSep ' ' (w2 :: ps2) ≠ [] := by
        obtain ⟨hne2, _⟩ := h w2 (by simp)
        cases ps2 with
        | nil => exact hne2
        | cons w3 ps3 =>
          rw [show joinSep ' ' (w2 :: w3 :: ps3) = w2 ++ ' ' :: joinSep ' ' (w3 :: ps3) from rfl]
          simp
      cases hgl : (joinSep ' ' (w2 :: ps2)).getLast? with
      | none => exact absurd (List.getLast?_eq_none_iff.mp hgl) hjn
      | some x =>
        have hx : isSpaceChar x = false :=
          ih (fun w' hw' => h w' (List.mem_cons_of_mem w hw')) x hgl
        have hlast : (' ' :: joinSep ' ' (w2 :: ps2)).getLast? = some x := by
          rw [show (' ' :: joinSep ' ' (w2 :: ps2)) = [' '] ++ joinSep ' ' (w2 :: ps2) from rfl,
            List.getLast?_append, hgl]
          rfl
        rw [hlast] at hc
        rw [show (some x).or w.getLast? = some x from rfl] at hc
        rw [← Option.some.inj hc]
        exact hx

theorem pyStrip_joinSep (pieces : List (List Char))
    (h : ∀ w ∈ pieces, w ≠ [] ∧ ∀ c ∈ w, isSpaceChar c = false) :
    pyStrip (joinSep ' ' pieces) = joinSep ' ' pieces := by
  unfold pyStrip
  rw [dropWhile_eq_self_of_head isSpaceChar _ (joinSep_head?_no_space pieces h)]
  have h2 : ∀ c, (joinSep ' ' pieces).reverse.head? = some c → isSpaceChar c = false := by
    intro c hc
    rw [List.head?_reverse] at hc
    exact joinSep_getLast?_no_space pieces h c hc
  rw [dropWhile_eq_self_of_head isSpaceChar _ h2, List.reverse_reverse]

theorem replaceChar_cons (a b x : Char) (t : List Char) :
    replaceChar a b (x :: t) = (if x = a then b else x) :: replaceChar a b t := rfl

theorem replaceChar_append (a b : Char) (l1 l2 : List Char) :
    replaceChar a b (l1 ++ l2) = replaceChar a b l1 ++ replaceChar a b l2 :=
  List.map_append _ _ _

theorem replaceChar_of_not_mem (a b : Char) (l : List Char) (h : ∀ c ∈ l, c ≠ a) :
    replaceChar a b l = l := by
  induction l with
  | nil => rfl
  | cons x t ih =>
    rw [replaceChar_cons, if_neg (h x (List.mem_cons_self x t)),
      ih (fun c hc => h c (List.mem_cons_of_mem x hc))]

theorem replaceChar_joinSep_sep (ws : List (List Char))
    (h : ∀ w ∈ ws, ∀ c ∈ w, c ≠ '.') :
    replaceChar '.' ' ' (joinSep '.' ws) = joinSep ' ' ws := by
  induction ws with
  | nil => rfl
  | cons w ps ih =>
    cases ps with
    | nil => exact replaceChar_of_not_mem '.' ' ' w (h w (List.mem_cons_self w []))
    | cons w2 ps2 =>
      show replaceChar '.' ' ' (w ++ '.' :: joinSep '.' (w2 :: ps2))
        = w ++ ' ' :: joinSep ' ' (w2 :: ps2)
      rw [replaceChar_append, replaceChar_cons, if_pos rfl,
        replaceChar_of_not_mem '.' ' ' w (h w (List.mem_cons_self w _)),
        ih (fun w' hw' => h w' (List.mem_cons_of_mem w hw'))]

theorem sepReplace_joinSep (ws : List (List Char))
    (h : ∀ w ∈ ws, ∀ c ∈ w, isWordChar c = true ∧ c ≠ '_') :
    sepReplace (joinSep '.' ws) = joinSep ' ' ws := by
  have hno : ∀ (x : Char), isWordChar x = false → x ≠ ' ' →
      ∀ c ∈ joinSep ' ' ws, c ≠ x := by
    intro x hx hxs c hc
    rcases mem_joinSep ' ' ws c hc with rfl | ⟨w', hw', hcw⟩
    · exact Ne.symm hxs
    · exact word_ne c x (h w' hw' c hcw).1 hx
  have hdot : ∀ w ∈ ws, ∀ c ∈ w, c ≠ '.' :=
    fun w hw c hc => word_ne c '.' (h w hw c hc).1 (by decide)
  have hun : ∀ c ∈ joinSep ' ' ws, c ≠ '_' := by
    intro c hc
    rcases mem_joinSep ' ' ws c hc with rfl | ⟨w', hw', hcw⟩
    · decide
    · exact (h w' hw' c hcw).2
  show replaceChar ']' ' ' (replaceChar '[' ' ' (replaceChar ')' ' ' (replaceChar '(' ' '
      (replaceChar '_' ' ' (replaceChar '.' ' ' (joinSep '.' ws)))))) = joinSep ' ' ws
  rw [replaceChar_joinSep_sep ws hdot,
    replaceChar_of_not_mem '_' ' ' _ hun,
    replaceChar_of_not_mem '(' ' ' _ (hno '(' (by decide) (by decide)),
    replaceChar_of_not_mem ')' ' ' _ (hno ')' (by decide) (by decide)),
    replaceChar_of_not_mem '[' ' ' _ (hno '[' (by decide) (by decide)),
    replaceChar_of_not_mem ']' ' ' _ (hno ']' (by decide) (by decide))]

theorem mapYear_filter (ws : List (List Char)) (h : ∀ w ∈ ws, w ≠ []) :
    (ws.map (fun w => if isYearToken w = true then [] else w)).filter (fun w => w ≠ []) =
      ws.filter (fun w => isYearToken w = false) := by
  induction ws with
  | nil => rfl
  | cons w ps ih =>
    have hne := h w (List.mem_cons_self w ps)
    have hih := ih (fun w' hw' => h w' (List.mem_cons_of_mem w hw'))
    rw [List.map_cons, List.filter_cons, List.filter_cons]
    by_cases hy : isYearToken w = true
    · rw [if_pos hy, hy, if_neg (by decide : ¬(decide (([] : List Char) ≠ []) = true)),
        if_neg (by decide : ¬(decide ((true : Bool) = false) = true))]
      exact hih
    · have hy' : isYearToken w = false := by
        cases hyy : isYearToken w
        · rfl
        · exact absurd hyy hy
      rw [if_neg hy, hy', if_pos (decide_eq_true hne),
        if_pos (by decide : decide ((false : Bool) = false) = true), hih]

theorem map_filter_comm (f : List Char → String) (p : List Char → Bool) (q : String → Bool)
    (hpq : ∀ w, q (f w) = p w) :
    ∀ ws : List (List Char), (ws.filter p).map f = (ws.map f).filter q := by
  intro ws
  induction ws with
  | nil => rfl
  | cons w ps ih =>
    rw [List.filter_cons, List.map_cons, List.filter_cons, hpq]
    by_cases hp : p w = true
    · rw [if_pos hp, if_pos hp, List.map_cons, ih]
    · rw [if_neg hp, if_neg hp, ih]

theorem heapGet_append_self :
    ∀ (h : Heap) (d : PyDict), heapGet (h ++ [d]) h.length = d := by
  intro h
  induction h with
  | nil => intro d; rfl
  | cons a t ih => intro d; exact ih d

theorem normalizeCore_words (stem : List Char) (cp singles : List String) :
    wordsOfStr (normalizeCore stem cp singles) =
      (wordsOfStr (normalizeCore stem cp [])).filter
        (fun s => !(singles.contains (pyLowerS s))) := by
  have hdata : ∀ l : List Char, (String.mk l).data = l := fun l => rfl
  simp only [normalizeCore, wordsOfStr, hdata]
  set pre := replaceChar '-' ' '
    (List.foldl (fun nm t => patternSub t nm) (yearGo false (sepReplace stem)) cp) with hpre
  rw [List.filter_eq_self.mpr
    (fun (w : List Char) _ => rfl :
      ∀ w ∈ pyWords pre,
        (!(List.contains ([] : List String) (String.mk (pyLower w)))) = true)]
  have props1 : ∀ w ∈ (pyWords pre).filter
      (fun w => !(singles.contains (String.mk (pyLower w)))),
      w ≠ [] ∧ ∀ c ∈ w, isSpaceChar c = false :=
    fun w hw => pyWords_props pre w (List.mem_of_mem_filter hw)
  have props0 : ∀ w ∈ pyWords pre, w ≠ [] ∧ ∀ c ∈ w, isSpaceChar c = false :=
    pyWords_props pre
  rw [pyStrip_joinSep _ props1, pyStrip_joinSep _ props0,
    pyWords_joinSep _ (fun w hw => (props1 w hw).2),
    pyWords_joinSep _ (fun w hw => (props0 w hw).2),
    List.filter_eq_self.mpr (fun w hw => decide_eq_true (props1 w hw).1),
    List.filter_eq_self.mpr (fun w hw => decide_eq_true (props0 w hw).1)]
  exact map_filter_comm String.mk
    (fun w => !(singles.contains (String.mk (pyLower w))))
    (fun s => !(singles.contains (pyLowerS s)))
    (fun w => rfl) (pyWords pre)

/-! ## Claims -/

/-- **C1 (amended).** For every input file (with its pydantic-validated
nonnegative technical duration) and every source-client result: when the
technical duration is nonzero or the source supplied no valid integer
runtime, a record is built and its duration equals the technical duration;
when the technical duration is exactly 0 and the source supplied a valid
*nonnegative* integer runtime, a record is built and its duration equals the
source's runtime (0 with runtime 80 yields 80; 95 yields 95 regardless of
the source runtime); when the technical duration is 0 and the source's valid
integer runtime is negative, no record is built — pydantic validation
(`ge=0`) raises `ValidationError`. -/
theorem C1_duration_fallback :
    (∀ (movie : MovieFile) (od : Option OmdbResult),
        0 ≤ movie.duration_minutes →
        movie.duration_minutes ≠ 0 ∨ od.bind (fun d => d.runtime_minutes) = none →
        ∃ rec, _build_metadata movie od = .ok rec ∧
          rec.duration_minutes = movie.duration_minutes)
    ∧ (∀ (movie : MovieFile) (d : OmdbResult) (r : Int),
        movie.duration_minutes = 0 → d.runtime_minutes = some r → 0 ≤ r →
        ∃ rec, _build_metadata movie (some d) = .ok rec ∧ rec.duration_minutes = r)
    ∧ (∀ (movie : MovieFile) (d : OmdbResult) (r : Int),
        movie.duration_minutes = 0 → d.runtime_minutes = some r → r < 0 →
        _build_metadata movie (some d) = .error .validationError)
    ∧ (∀ fp fn t g p, _build_metadata ⟨fp, fn, 0⟩ (some ⟨t, g, p, some 80⟩) =
        .ok ⟨fp, t, g, p, 80⟩)
    ∧ (∀ fp fn (od : Option OmdbResult),
        ∃ rec, _build_metadata ⟨fp, fn, 95⟩ od = .ok rec ∧
          rec.duration_minutes = 95) := by
  refine ⟨?_, ?_, ?_, ?_, ?_⟩
  · intro movie od hm h
    cases od with
    | none =>
      refine ⟨⟨movie.file_path, none, [], none, movie.duration_minutes⟩, ?_, rfl⟩
      unfold _build_metadata mkMovieMetadata
      rw [if_pos hm]
    | some d =>
      cases hr : d.runtime_minutes with
      | none =>
        refine ⟨⟨movie.file_path, d.title, d.genres, d.plot, movie.duration_minutes⟩,
          ?_, rfl⟩
        simp only [_build_metadata, mkMovieMetadata, hr]
        rw [if_pos hm]
      | some r =>
        rcases h with h0 | hb
        · refine ⟨⟨movie.file_path, d.title, d.genres, d.plot, movie.duration_minutes⟩,
            ?_, rfl⟩
          simp only [_build_metadata, mkMovieMetadata, hr, if_neg h0]
          rw [if_pos hm]
        · simp [hr] at hb
  · intro movie d r h0 hr hr0
    refine ⟨⟨movie.file_path, d.title, d.genres, d.plot, r⟩, ?_, rfl⟩
    simp only [_build_metadata, mkMovieMetadata, hr, if_pos h0]
    rw [if_pos hr0]
  · intro movie d r h0 hr hneg
    simp only [_build_metadata, mkMovieMetadata, hr, if_pos h0]
    rw [if_neg (by omega : ¬ 0 ≤ r)]
  · intro fp fn t g p
    rfl
  · intro fp fn od
    cases od with
    | none => exact ⟨⟨fp, none, [], none, 95⟩, rfl, rfl⟩
    | some d =>
      cases hr : d.runtime_minutes with
      | none =>
        refine ⟨⟨fp, d.title, d.genres, d.plot, 95⟩, ?_, rfl⟩
        simp only [_build_metadata, mkMovieMetadata, hr]
        rfl
      | some r =>
        refine ⟨⟨fp, d.title, d.genres, d.plot, 95⟩, ?_, rfl⟩
        simp only [_build_metadata, mkMovieMetadata, hr]
        rw [if_neg (by decide : ¬ (95 : Int) = 0)]
        rfl

/-- **C1 counterexample.** The claim as stated requires a built record with
duration equal to the source runtime whenever the technical duration is 0 and
the runtime is a valid integer; at runtime `-5` (reachable from the OMDb
field `"Runtime": "-5 min"`) the program raises `ValidationError` and builds
no record at all. -/
theorem C1_duration_fallback_counterexample :
    ¬ ∃ rec : MovieMetadata,
      _build_metadata ⟨"/m.mkv", "m.mkv", 0⟩ (some ⟨none, [], none, some (-5)⟩) =
        .ok rec := by
  rintro ⟨rec, hrec⟩
  rw [show _build_metadata ⟨"/m.mkv", "m.mkv", 0⟩ (some ⟨none, [], none, some (-5)⟩) =
      Except.error PyErr.validationError from rfl] at hrec
  exact Except.noConfusion hrec

theorem C1_duration_fallback_witness :
    (∃ rec, _build_metadata ⟨"/z", "z", 0⟩ (some ⟨none, [], none, some 80⟩) = .ok rec ∧
      rec.duration_minutes = 80)
    ∧ (∃ rec, _build_metadata ⟨"/m", "m", 95⟩ (some ⟨none, [], none, some 80⟩) = .ok rec ∧
      rec.duration_minutes = 95)
    ∧ _build_metadata ⟨"/n", "n", 0⟩ (some ⟨none, [], none, some (-5)⟩) =
        .error .validationError :=
  ⟨C1_duration_fallback.2.1 ⟨"/z", "z", 0⟩ ⟨none, [], none, some 80⟩ 80 rfl rfl
      (by decide),
    C1_duration_fallback.1 ⟨"/m", "m", 95⟩ (some ⟨none, [], none, some 80⟩)
      (by decide) (Or.inl (by decide)),
    C1_duration_fallback.2.2.1 ⟨"/n", "n", 0⟩ ⟨none, [], none, some (-5)⟩ (-5)
      rfl rfl (by decide)⟩

/-- **C7.** The metadata source client's fetch returns absent (not an
exception) for a network/transport failure, a non-2xx HTTP response, and a
response in which the source explicitly reports no match; none of these
conditions raises to the caller (the embedding of the fetch is a total
function into `Option`). -/
theorem C7_fetch_absent :
    fetch_movie_metadata .requestError = none
    ∧ (∀ (s : Nat) (b : OmdbJson), s < 200 ∨ 300 ≤ s →
        fetch_movie_metadata (.response s b) = none)
    ∧ (∀ (s : Nat) (b : OmdbJson), b.responseField ≠ some "True" →
        fetch_movie_metadata (.response s b) = none) := by
  refine ⟨rfl, ?_, ?_⟩
  · intro s b h
    simp only [fetch_movie_metadata]
    rw [if_pos h]
  · intro s b h
    simp only [fetch_movie_metadata]
    by_cases hs : s < 200 ∨ 300 ≤ s
    · rw [if_pos hs]
    · rw [if_neg hs, if_pos h]

theorem C7_fetch_absent_witness :
    fetch_movie_metadata (.response 404 ⟨some "True", none, none, none, none, none⟩) = none
    ∧ fetch_movie_metadata
        (.response 200 ⟨some "False", some "Movie not found!", none, none, none, none⟩)
        = none :=
  ⟨C7_fetch_absent.2.1 404 ⟨some "True", none, none, none, none, none⟩ (Or.inr (by decide)),
    C7_fetch_absent.2.2 200 ⟨some "False", some "Movie not found!", none, none, none, none⟩
      (by decide)⟩

/-- **C4.** Compound noise tokens (tokens containing a hyphen or a space) are
matched case-insensitively as whole phrases with word boundaries and deleted
before remaining hyphens are replaced with spaces: a configured compound token
such as "WEBRip-WORLD" is removed as one unit (also when it appears
lower-case), an unconfigured word like "WORLD" survives inside unrelated
titles, and the phrase is not removed when it is glued inside a longer word
(no word boundary). -/
theorem C4_compound_tokens :
    normalizeWithTokens "Movie.Title.2020.WEBRip-WORLD.mkv" ["WEBRip-WORLD"] = "Movie Title"
    ∧ normalizeWithTokens "World.War.Z.mkv" ["WEBRip-WORLD"] = "World War Z"
    ∧ normalizeWithTokens "Movie.webrip-world.mkv" ["WEBRip-WORLD"] = "Movie"
    ∧ normalizeWithTokens "The.AWEBRip-WORLD.mkv" ["WEBRip-WORLD"] = "The AWEBRip WORLD"
    ∧ normalizeWithTokens "Film.Extended CUT.mkv" ["Extended CUT"] = "Film" :=
  ⟨rfl, rfl, rfl, rfl, rfl⟩

/-- **C9.** Sorting with field "duration" orders records ascending by
duration and with "-duration" descending by duration (durations [100, 120]
come back as [120, 100]); for every sort string whose field name (after the
optional "-" marker) is not a recognized field, the output order equals the
input order — a stable no-op, not an error. -/
theorem C9_sorting :
    (∀ movies : List MovieMetadata,
      List.Sorted (fun a b : MovieMetadata => a.duration_minutes ≤ b.duration_minutes)
          (_sort_movies movies "duration")
        ∧ (_sort_movies movies "duration").Perm movies)
    ∧ (∀ movies : List MovieMetadata,
      List.Sorted (fun a b : MovieMetadata => b.duration_minutes ≤ a.duration_minutes)
          (_sort_movies movies "-duration")
        ∧ (_sort_movies movies "-duration").Perm movies)
    ∧ _sort_movies [⟨"/a", none, [], none, 100⟩, ⟨"/b", none, [], none, 120⟩] "-duration"
        = [⟨"/b", none, [], none, 120⟩, ⟨"/a", none, [], none, 100⟩]
    ∧ (∀ (sort : String) (movies : List MovieMetadata),
        sortField sort ≠ "duration" → _sort_movies movies sort = movies) := by
  refine ⟨?_, ?_, rfl, ?_⟩
  · intro movies
    have hps : _parse_sort "duration" = ((fun m => m.duration_minutes), false) := rfl
    simp only [_sort_movies, hps, pySorted, if_neg Bool.false_ne_true]
    constructor
    · haveI h1 : IsTotal MovieMetadata
          (fun a b => a.duration_minutes ≤ b.duration_minutes) :=
        ⟨fun a b => le_total _ _⟩
      haveI h2 : IsTrans MovieMetadata
          (fun a b => a.duration_minutes ≤ b.duration_minutes) :=
        ⟨fun _ _ _ hab hbc => le_trans hab hbc⟩
      exact List.sorted_insertionSort _ _
    · exact List.perm_insertionSort _ _
  · intro movies
    have hps : _parse_sort "-duration" = ((fun m => m.duration_minutes), true) := rfl
    simp only [_sort_movies, hps, pySorted, if_pos rfl]
    constructor
    · haveI h1 : IsTotal MovieMetadata
          (fun a b => b.duration_minutes ≤ a.duration_minutes) :=
        ⟨fun a b => le_total _ _⟩
      haveI h2 : IsTrans MovieMetadata
          (fun a b => b.duration_minutes ≤ a.duration_minutes) :=
        ⟨fun _ _ _ hab hbc => le_trans hbc hab⟩
      exact List.sorted_insertionSort _ _
    · exact List.perm_insertionSort _ _
  · intro sort movies h
    simp only [_sort_movies, _parse_sort, if_neg h, pySorted, if_neg Bool.false_ne_true]
    exact insertionSort_of_total _ (fun _ _ => le_refl 0) movies

theorem C9_sorting_witness :
    _sort_movies [⟨"/w", none, [], none, 7⟩] "unknown" = [⟨"/w", none, [], none, 7⟩] :=
  C9_sorting.2.2.2 "unknown" [⟨"/w", none, [], none, 7⟩] (by decide)

/-- **C10.** Calling `SearchService.search` with an empty keyword list, or
with keywords that are all empty or whitespace-only after trimming, applies
no filtering: every input movie appears in the result. -/
theorem C10_blank_keywords :
    ∀ (movies : List MovieMetadata) (keywords : List String) (sort : String),
      (∀ kw ∈ keywords, pyStripS kw = "") →
      ∀ m ∈ movies, m ∈ search movies keywords sort := by
  intro movies keywords sort h m hm
  have hf : _filter_movies movies keywords = movies := by
    unfold _filter_movies
    by_cases hk : keywords.isEmpty
    · rw [if_pos hk]
    · rw [if_neg hk]
      have hfil : keywords.filter (fun kw => pyStripS kw ≠ "") = [] := by
        rw [List.filter_eq_nil_iff]
        intro kw hkw
        simp [h kw hkw]
      rw [hfil]
      simp
  unfold search
  rw [hf]
  simp only [_sort_movies, pySorted]
  by_cases h2 : (_parse_sort sort).2 = true
  · rw [if_pos h2, List.mem_insertionSort]
    exact hm
  · rw [if_neg h2, List.mem_insertionSort]
    exact hm

/-- **C2 (amended).** For every sequence of pydantic-valid input files
(nonnegative technical durations) and every client behaviour whose
source-supplied runtimes are nonnegative integers when present, the
enrichment pipeline succeeds and returns exactly one record per input file;
processing is compositional over list append (so records come back in input
order); and a source-client failure (absent result) never causes an error to
propagate — with the always-absent client the pipeline succeeds on every
valid input list.  (Without the nonnegative-runtime proviso the original
claim fails: a source runtime such as `-5` on a 0-duration file makes record
validation raise `ValidationError`, which propagates to the pipeline's
caller.) -/
theorem C2_one_record_per_file :
    ∀ (fetchFn : String → Option OmdbResult) (cp st : List String),
      ((∀ q d r, fetchFn q = some d → d.runtime_minutes = some r → 0 ≤ r) →
        ∀ (ms : List MovieFile) (cache : PyDict),
          (∀ m ∈ ms, 0 ≤ m.duration_minutes) →
          ∃ out, enrich_movies fetchFn cp st ms cache = .ok out ∧
            out.records.length = ms.length)
      ∧ (∀ (ms1 ms2 : List MovieFile) (cache : PyDict) (o1 o2 : EnrichOut),
          enrich_movies fetchFn cp st ms1 cache = .ok o1 →
          enrich_movies fetchFn cp st ms2 o1.cache = .ok o2 →
          enrich_movies fetchFn cp st (ms1 ++ ms2) cache =
            .ok { records := o1.records ++ o2.records, cache := o2.cache,
                  calls := o1.calls ++ o2.calls })
      ∧ (∀ (ms : List MovieFile) (cache : PyDict),
          (∀ m ∈ ms, 0 ≤ m.duration_minutes) →
          ∃ out, enrich_movies (fun _ => none) cp st ms cache = .ok out ∧
            out.records.length = ms.length) :=
  fun f cp st =>
    ⟨fun hfetch => enrich_ok_of_valid f cp st hfetch,
      enrich_append_ok f cp st,
      enrich_ok_of_valid (fun _ => none) cp st
        (fun _ _ _ he _ => Option.noConfusion he)⟩

/-- **C2 counterexample.** With a client returning a valid integer runtime of
`-5` (as parsed from `"Runtime": "-5 min"`) and a single 0-duration input
file, the pipeline does not return one record per input file: record
validation raises `ValidationError`, which propagates to the caller. -/
theorem C2_one_record_per_file_counterexample :
    ¬ ∃ out : EnrichOut,
      enrich_movies (fun _ => some ⟨none, [], none, some (-5)⟩) [] []
        [⟨"/n.mkv", "n.mkv", 0⟩] [] = .ok out := by
  rintro ⟨out, hout⟩
  rw [show enrich_movies (fun _ => some ⟨none, [], none, some (-5)⟩) [] []
      [⟨"/n.mkv", "n.mkv", 0⟩] [] = Except.error PyErr.validationError from rfl] at hout
  exact Except.noConfusion hout

theorem C2_one_record_per_file_witness :
    ∃ out, enrich_movies (fun _ => none) [] [] [⟨"/a.mkv", "a.mkv", 5⟩] [] = .ok out ∧
      out.records.length = 1 :=
  (C2_one_record_per_file (fun _ => none) [] []).1
    (fun _ d r he _ => Option.noConfusion he)
    [⟨"/a.mkv", "a.mkv", 5⟩] [] (by decide)

/-- **C3.** Enrichment is cache-transparent: for a file whose cache key (its
path as a string) is already present in the cache, enrich appends the cached
record unchanged and makes no source-client call; and calling enrich a second
time on the same file list (starting from the cache the first call produced)
issues no source-client calls and returns records equal to the first call's
results. -/
theorem C3_cache_transparent :
    ∀ (fetchFn : String → Option OmdbResult) (cp st : List String),
      (∀ (m : MovieFile) (ms : List MovieFile) (cache : PyDict) (v : MovieMetadata)
        (out : EnrichOut),
        dictGet cache m.file_path = some v →
        enrich_movies fetchFn cp st ms cache = .ok out →
        enrich_movies fetchFn cp st (m :: ms) cache =
          .ok { records := v :: out.records, cache := out.cache, calls := out.calls })
      ∧ (∀ (ms : List MovieFile) (cache : PyDict) (out : EnrichOut),
          enrich_movies fetchFn cp st ms cache = .ok out →
          enrich_movies fetchFn cp st ms out.cache =
            .ok { records := out.records, cache := out.cache, calls := [] }) := by
  intro f cp st
  constructor
  · intro m ms cache v out h ho
    simp [enrich_movies, h, ho]
  · intro ms cache out ho
    exact enrich_all_hits f cp st ms out.cache out.records
      (enrich_cache_covers f cp st ms cache out ho)

theorem C3_cache_transparent_witness :
    enrich_movies (fun _ => none) [] [] [⟨"/a.mkv", "a.mkv", 5⟩]
        [("/a.mkv", ⟨"/a.mkv", some "A", [], none, 5⟩)] =
      .ok { records := [⟨"/a.mkv", some "A", [], none, 5⟩],
            cache := [("/a.mkv", ⟨"/a.mkv", some "A", [], none, 5⟩)],
            calls := [] } :=
  (C3_cache_transparent (fun _ => none) [] []).1 ⟨"/a.mkv", "a.mkv", 5⟩ []
    [("/a.mkv", ⟨"/a.mkv", some "A", [], none, 5⟩)]
    ⟨"/a.mkv", some "A", [], none, 5⟩
    { records := [], cache := [("/a.mkv", ⟨"/a.mkv", some "A", [], none, 5⟩)], calls := [] }
    (by decide) rfl

/-- **C8.** For every cache state (a valid store reference into the heap),
after `set(k, v)`, `get(k)` returns `v`; and mutating the mapping returned by
`get_all`, or the mapping passed at construction time, never changes the
results of subsequent `get`/`exists`/`get_all` calls on the cache
(construction-time copy-in, read-time copy-out). -/
theorem C8_cache_isolation :
    ∀ (h : Heap) (self : Nat), self < h.length →
      (∀ (k : String) (v : MovieMetadata),
        cache_get (cache_set h self k v) self k = some v)
      ∧ (∀ (d2 : PyDict) (k : String),
          cache_get (dict_mutate (cache_get_all h self).1 (cache_get_all h self).2 d2) self k
            = cache_get h self k
          ∧ cache_exists (dict_mutate (cache_get_all h self).1 (cache_get_all h self).2 d2)
              self k
            = cache_exists h self k
          ∧ heapGet (dict_mutate (cache_get_all h self).1 (cache_get_all h self).2 d2) self
            = heapGet h self)
      ∧ (∀ (r0 : Nat), r0 < h.length → ∀ (d2 : PyDict) (k : String),
          cache_get (dict_mutate (inMemoryCache_init h (some r0)).1 r0 d2)
              (inMemoryCache_init h (some r0)).2 k
            = cache_get (inMemoryCache_init h (some r0)).1
                (inMemoryCache_init h (some r0)).2 k) := by
  intro h self hself
  refine ⟨?_, ?_, ?_⟩
  · intro k v
    unfold cache_get cache_set
    rw [heapGet_set_self h self _ hself]
    exact dictGet_dictSet_self _ _ _
  · intro d2 k
    have hmut : heapGet (dict_mutate (cache_get_all h self).1 (cache_get_all h self).2 d2)
        self = heapGet h self := by
      show heapGet (heapSet (h ++ [heapGet h self]) h.length d2) self = heapGet h self
      rw [heapGet_set_ne _ _ _ _ (Nat.ne_of_gt hself)]
      exact heapGet_append_lt h _ self hself
    exact ⟨by unfold cache_get; rw [hmut], by unfold cache_exists; rw [hmut], hmut⟩
  · intro r0 hr0 d2 k
    show dictGet (heapGet (heapSet (h ++ [heapGet h r0]) r0 d2) h.length) k
      = dictGet (heapGet (h ++ [heapGet h r0]) h.length) k
    rw [heapGet_set_ne _ _ _ _ (Nat.ne_of_lt hr0)]

theorem C8_cache_isolation_witness :
    cache_get (cache_set [[]] 0 "k" ⟨"/a", none, [], none, 1⟩) 0 "k"
        = some ⟨"/a", none, [], none, 1⟩
    ∧ cache_get
        (dict_mutate (inMemoryCache_init [[]] (some 0)).1 0 [("x", ⟨"/a", none, [], none, 1⟩)])
        (inMemoryCache_init [[]] (some 0)).2 "k"
      = cache_get (inMemoryCache_init [[]] (some 0)).1 (inMemoryCache_init [[]] (some 0)).2 "k" :=
  ⟨(C8_cache_isolation [[]] 0 (by decide)).1 "k" ⟨"/a", none, [], none, 1⟩,
    (C8_cache_isolation [[]] 0 (by decide)).2.2 0 (by decide)
      [("x", ⟨"/a", none, [], none, 1⟩)] "k"⟩

/-- **C5.** For every noise-token configuration and every filename,
normalization removes each single-word noise token exactly when it occurs as
a standalone word whose lowercase form equals the (lowercased) token, and
never removes a token that occurs only as a substring of a longer word: the
words of the normalized name are precisely the words produced by the same
pipeline without the single-token set, filtered by case-insensitive
whole-word membership in that set. -/
theorem C5_single_noise_tokens :
    ∀ (file_path : String) (tokens : List String),
      wordsOfStr (normalizeWithTokens file_path tokens) =
        (wordsOfStr (normalizeWithTokens file_path (serviceCompounds tokens))).filter
          (fun s => !((serviceSingleTokens tokens).contains (pyLowerS s))) := by
  intro p tokens
  have hcc : serviceCompounds (serviceCompounds tokens) = serviceCompounds tokens := by
    unfold serviceCompounds
    rw [List.filter_filter]
    exact List.filter_congr (fun x _ => Bool.and_self _)
  have hsc : serviceSingleTokens (serviceCompounds tokens) = [] := by
    unfold serviceSingleTokens serviceCompounds
    rw [List.filter_filter]
    rw [List.filter_congr
      (fun (x : String) _ => Bool.not_and_self (x.data.contains '-' || x.data.contains ' '))]
    simp
  unfold normalizeWithTokens
  rw [hcc, hsc]
  unfold _normalize_filename
  exact normalizeCore_words _ _ _

/-- **C6.** Normalization deletes every standalone 4-digit token whose value
lies in 1900-2099 (bounded by word boundaries) after separators are replaced
with spaces, and no other token: over any dot-separated list of nonempty
words made of word characters, the empty-noise pipeline returns exactly the
non-year words joined by single spaces; in particular "The.Matrix.1999.mkv"
with an empty noise-token configuration normalizes to "The Matrix". -/
theorem C6_year_removal :
    (∀ ws : List (List Char),
      (∀ w ∈ ws, w ≠ [] ∧ ∀ c ∈ w, isWordChar c = true ∧ c ≠ '_') →
      normalizeCore (joinSep '.' ws) [] [] =
        String.mk (joinSep ' ' (ws.filter (fun w => isYearToken w = false))))
    ∧ normalizeWithTokens "The.Matrix.1999.mkv" [] = "The Matrix" := by
  constructor
  · intro ws h
    have hword : ∀ w ∈ ws, ∀ c ∈ w, isWordChar c = true ∧ c ≠ '_' := fun w hw => (h w hw).2
    have hne : ∀ w ∈ ws, w ≠ [] := fun w hw => (h w hw).1
    simp only [normalizeCore, List.foldl_nil]
    rw [sepReplace_joinSep ws hword]
    rw [yearGo_joinSep ws (fun w hw => ⟨hne w hw, fun c hc => (hword w hw c hc).1⟩)]
    set pieces := ws.map (fun w => if isYearToken w = true then [] else w) with hp
    have hpieces_chars : ∀ w ∈ pieces, ∀ c ∈ w, isWordChar c = true := by
      intro w hw c hc
      rw [hp] at hw
      rcases List.mem_map.mp hw with ⟨w0, hw0, hmap⟩
      subst hmap
      by_cases hy : isYearToken w0 = true
      · rw [if_pos hy] at hc
        cases hc
      · rw [if_neg hy] at hc
        exact (hword w0 hw0 c hc).1
    have hhyph : replaceChar '-' ' ' (joinSep ' ' pieces) = joinSep ' ' pieces := by
      apply replaceChar_of_not_mem
      intro c hc
      rcases mem_joinSep ' ' pieces c hc with rfl | ⟨w', hw', hcw⟩
      · decide
      · exact word_ne c '-' (hpieces_chars w' hw' c hcw) (by decide)
    rw [hhyph]
    rw [pyWords_joinSep pieces (fun w hw c hc => word_not_space c (hpieces_chars w hw c hc))]
    rw [hp, mapYear_filter ws hne]
    rw [List.filter_eq_self.mpr
      (fun (w : List Char) _ => rfl :
        ∀ w ∈ ws.filter (fun w => isYearToken w = false),
          (!(List.contains ([] : List String) (String.mk (pyLower w)))) = true)]
    have propsF : ∀ w ∈ ws.filter (fun w => isYearToken w = false),
        w ≠ [] ∧ ∀ c ∈ w, isSpaceChar c = false := by
      intro w hw
      have hwm := List.mem_of_mem_filter hw
      exact ⟨hne w hwm, fun c hc => word_not_space c (hword w hwm c hc).1⟩
    rw [pyStrip_joinSep _ propsF]
  · rfl

theorem C6_year_removal_witness :
    normalizeCore (joinSep '.' [['M', 'o', 'v', 'i', 'e'], ['1', '9', '9', '9']]) [] [] =
      String.mk (joinSep ' ' ([['M', 'o', 'v', 'i', 'e'], ['1', '9', '9', '9']].filter
        (fun w => isYearToken w = false))) :=
  C6_year_removal.1 [['M', 'o', 'v', 'i', 'e'], ['1', '9', '9', '9']] (by decide)

theorem C10_blank_keywords_witness :
    (⟨"/a", some "T", [], none, 5⟩ : MovieMetadata) ∈
      search [⟨"/a", some "T", [], none, 5⟩] ["", "  "] "duration" :=
  C10_blank_keywords [⟨"/a", some "T", [], none, 5⟩] ["", "  "] "duration"
    (by decide) ⟨"/a", some "T", [], none, 5⟩ (by decide)

end MoviePycker
